import Mathlib

/-!
Verification of the per-member Elo scoring engine and rank-aggregation
pipeline of the movie-party application, shallowly embedded in Lean.
Numeric ratings are embedded as rationals; JS Maps are embedded as
association lists in insertion order.
-/

/-- Swipe direction: left = reject, right = accept. -/
inductive Direction where
  | left
  | right
deriving DecidableEq, Repr

/-- A party movie row, restricted to the fields the scoring core reads
(interface PartyMovie in the source: movie_id, title, expected_score,
elo_rating). -/
structure PartyMovie where
  movie_id : String
  title : String
  expected_score : ℚ
  elo_rating : ℚ
deriving DecidableEq, Repr

/-- One swipe by a member, as passed to calculateMemberElo: movie_id and
direction. -/
structure Swipe where
  movie_id : String
  direction : Direction
deriving DecidableEq, Repr

/-- A (title, elo) pair, the element type of the arrays returned by
calculateMemberElo and consumed by checkAll. -/
structure ScoredTitle where
  title : String
  elo : ℚ
deriving DecidableEq, Repr

/-- K_FACTOR = 32 from calculateMemberElo. -/
def K_FACTOR : ℚ := 32

/-- BASE_ELO = 1200 from calculateMemberElo. -/
def BASE_ELO : ℚ := 1200

/-- The value type of the movieRatings map of calculateMemberElo. -/
structure MovieRating where
  elo : ℚ
  expected_score : ℚ
  title : String
deriving DecidableEq, Repr

/-- The movieRatings JS Map, embedded as an association list kept in
insertion order. -/
abbrev EloMap := List (String × MovieRating)

/-- JS Map.set semantics: overwrite the entry in place when the key already
exists, else append the new entry. -/
def mapSet (m : EloMap) (k : String) (v : MovieRating) : EloMap :=
  if m.any (fun p => p.1 = k) then
    m.map (fun p => if p.1 = k then (k, v) else p)
  else
    m ++ [(k, v)]

/-- First loop of calculateMemberElo: every movie is inserted with base elo,
its fixed expected_score and its title. -/
def initRatings (movies : List PartyMovie) : EloMap :=
  movies.foldl
    (fun m movie => mapSet m movie.movie_id ⟨BASE_ELO, movie.expected_score, movie.title⟩)
    []

/-- actualScore from the swipe loop: 1.0 for a right swipe, 0.0 for a left
swipe. -/
def actualScore (d : Direction) : ℚ :=
  if d = Direction.right then 1 else 0

/-- Body of the swipe loop of calculateMemberElo: a swipe whose movie_id is
not a key of the map leaves the map unchanged (the source continues), else
the matching entry's elo grows by K_FACTOR * (actualScore - expected_score);
expected_score and title are untouched. -/
def applySwipe (m : EloMap) (s : Swipe) : EloMap :=
  m.map (fun p =>
    if p.1 = s.movie_id then
      (p.1, ⟨p.2.elo + K_FACTOR * (actualScore s.direction - p.2.expected_score),
             p.2.expected_score, p.2.title⟩)
    else p)

/-- calculateMemberElo from the source: initialize every movie at BASE_ELO,
fold the member's swipes over the map in their given order, and return the
(title, elo) pairs in map order. -/
def calculateMemberElo (movies : List PartyMovie) (memberSwipes : List Swipe) :
    List ScoredTitle :=
  (memberSwipes.foldl applySwipe (initRatings movies)).map
    (fun p => ⟨p.2.title, p.2.elo⟩)

/-! Helper lemmas about the scorer's state. -/

theorem initRatings_eq_of_nodup (movies : List PartyMovie)
    (h : (movies.map (fun m => m.movie_id)).Nodup) :
    initRatings movies =
      movies.map (fun m => (m.movie_id, (⟨BASE_ELO, m.expected_score, m.title⟩ : MovieRating))) := by
  suffices H : ∀ (ms : List PartyMovie) (acc : EloMap),
      (ms.map (fun m => m.movie_id)).Nodup →
      (∀ m ∈ ms, ∀ p ∈ acc, p.1 ≠ m.movie_id) →
      ms.foldl (fun m movie =>
          mapSet m movie.movie_id ⟨BASE_ELO, movie.expected_score, movie.title⟩) acc =
        acc ++ ms.map (fun m => (m.movie_id, (⟨BASE_ELO, m.expected_score, m.title⟩ : MovieRating))) by
    simpa [initRatings] using H movies [] h (by simp)
  intro ms
  induction ms with
  | nil => intro acc _ _; simp
  | cons movie rest ih =>
    intro acc hnd hdisj
    have hset : mapSet acc movie.movie_id ⟨BASE_ELO, movie.expected_score, movie.title⟩ =
        acc ++ [(movie.movie_id, (⟨BASE_ELO, movie.expected_score, movie.title⟩ : MovieRating))] := by
      have : acc.any (fun p => p.1 = movie.movie_id) = false := by
        rw [List.any_eq_false]
        intro p hp
        simpa using hdisj movie (by simp) p hp
      simp [mapSet, this]
    simp only [List.foldl_cons, hset]
    have hdisj' : ∀ m ∈ rest,
        ∀ p ∈ acc ++ [(movie.movie_id, (⟨BASE_ELO, movie.expected_score, movie.title⟩ : MovieRating))],
        p.1 ≠ m.movie_id := by
      intro m hm p hp
      rcases List.mem_append.mp hp with hp | hp
      · exact hdisj m (List.mem_cons_of_mem _ hm) p hp
      · simp only [List.mem_singleton] at hp
        subst hp
        simp only [List.map_cons, List.nodup_cons] at hnd
        intro hcontra
        have hid : movie.movie_id = m.movie_id := hcontra
        exact hnd.1 (hid ▸ List.mem_map_of_mem (fun m => m.movie_id) hm)
    have hr := ih (acc ++ [(movie.movie_id, ⟨BASE_ELO, movie.expected_score, movie.title⟩)])
      (by simpa using hnd.of_cons) hdisj'
    rw [hr]
    simp

theorem applySwipe_map_title (m : EloMap) (s : Swipe) :
    (applySwipe m s).map (fun p => p.2.title) = m.map (fun p => p.2.title) := by
  simp only [applySwipe, List.map_map]
  apply List.map_congr_left
  intro p _
  by_cases h : p.1 = s.movie_id <;> simp [h]

theorem applySwipe_map_key (m : EloMap) (s : Swipe) :
    (applySwipe m s).map (fun p => p.1) = m.map (fun p => p.1) := by
  simp only [applySwipe, List.map_map]
  apply List.map_congr_left
  intro p _
  by_cases h : p.1 = s.movie_id <;> simp [h]

theorem foldl_applySwipe_map_title (swipes : List Swipe) (st : EloMap) :
    ((swipes.foldl applySwipe st).map (fun p => p.2.title)) =
      st.map (fun p => p.2.title) := by
  induction swipes generalizing st with
  | nil => rfl
  | cons s rest ih => simp [List.foldl_cons, ih, applySwipe_map_title]

theorem foldl_applySwipe_map_key (swipes : List Swipe) (st : EloMap) :
    ((swipes.foldl applySwipe st).map (fun p => p.1)) = st.map (fun p => p.1) := by
  induction swipes generalizing st with
  | nil => rfl
  | cons s rest ih => simp [List.foldl_cons, ih, applySwipe_map_key]

/-- C7: with an empty swipe list the scorer returns the all-baseline vector:
one entry per candidate, in candidate order, each with elo exactly 1200. -/
theorem calculateMemberElo_empty_swipes (movies : List PartyMovie)
    (h : (movies.map (fun m => m.movie_id)).Nodup) :
    calculateMemberElo movies [] =
      movies.map (fun m => (⟨m.title, 1200⟩ : ScoredTitle)) := by
  simp [calculateMemberElo, initRatings_eq_of_nodup movies h, BASE_ELO]

/-- Closed witness for C7 at a two-candidate party. -/
theorem calculateMemberElo_empty_swipes_witness :
    calculateMemberElo
        [⟨"m1", "A", 1/2, 1200⟩, ⟨"m2", "B", 4/5, 1200⟩] [] =
      [⟨"A", 1200⟩, ⟨"B", 1200⟩] := by
  have := calculateMemberElo_empty_swipes
    [⟨"m1", "A", 1/2, 1200⟩, ⟨"m2", "B", 4/5, 1200⟩] (by decide)
  simpa using this

/-- C1: every swipe on a candidate present in the rating state adds exactly
K * (a - e) = 32 * (a - e) to that candidate's current elo, leaving its
expected_score fixed; in particular a single accepted swipe starting from the
baseline yields 1200 + 32 * (1 - e) and a single rejection yields
1200 + 32 * (0 - e). -/
theorem calculateMemberElo_swipe_delta :
    (∀ (st : EloMap) (s : Swipe) (k : String) (r : MovieRating),
      (k, r) ∈ st → k = s.movie_id →
      (k, (⟨r.elo + 32 * (actualScore s.direction - r.expected_score),
            r.expected_score, r.title⟩ : MovieRating)) ∈ applySwipe st s)
    ∧ (∀ c : PartyMovie,
        calculateMemberElo [c] [⟨c.movie_id, Direction.right⟩] =
          [⟨c.title, 1200 + 32 * (1 - c.expected_score)⟩])
    ∧ (∀ c : PartyMovie,
        calculateMemberElo [c] [⟨c.movie_id, Direction.left⟩] =
          [⟨c.title, 1200 + 32 * (0 - c.expected_score)⟩]) := by
  refine ⟨?_, ?_, ?_⟩
  · intro st s k r hmem hk
    have heq : (fun p : String × MovieRating =>
        if p.1 = s.movie_id then
          (p.1, (⟨p.2.elo + K_FACTOR * (actualScore s.direction - p.2.expected_score),
                 p.2.expected_score, p.2.title⟩ : MovieRating))
        else p) (k, r) =
        (k, (⟨r.elo + 32 * (actualScore s.direction - r.expected_score),
              r.expected_score, r.title⟩ : MovieRating)) := by
      simp [hk, K_FACTOR]
    exact heq ▸ List.mem_map_of_mem _ hmem
  · intro c
    simp [calculateMemberElo, initRatings, mapSet, applySwipe, actualScore,
      K_FACTOR, BASE_ELO]
  · intro c
    simp [calculateMemberElo, initRatings, mapSet, applySwipe, actualScore,
      K_FACTOR, BASE_ELO]

/-- Closed witness for C1: a right swipe at expected score 1/2 moves 1234 to
1250; the concrete single-swipe runs are evaluated as well. -/
theorem calculateMemberElo_swipe_delta_witness :
    (("m1", (⟨1250, 1/2, "A"⟩ : MovieRating)) ∈
      applySwipe [("m1", ⟨1234, 1/2, "A"⟩)] ⟨"m1", Direction.right⟩)
    ∧ calculateMemberElo [⟨"m1", "A", 1/2, 1200⟩] [⟨"m1", Direction.right⟩] =
        [⟨"A", 1216⟩] := by
  constructor
  · have h := calculateMemberElo_swipe_delta.1 [("m1", ⟨1234, 1/2, "A"⟩)]
      ⟨"m1", Direction.right⟩ "m1" ⟨1234, 1/2, "A"⟩ (by simp) rfl
    norm_num [actualScore] at h
    exact h
  · have h := calculateMemberElo_swipe_delta.2.1 ⟨"m1", "A", 1/2, 1200⟩
    norm_num at h
    exact h

/-- C5: the scorer's output has exactly one entry per input candidate, in
candidate order: the output title list equals the candidate title list,
whatever swipes the member made. -/
theorem calculateMemberElo_one_entry_per_candidate
    (movies : List PartyMovie) (swipes : List Swipe)
    (h : (movies.map (fun m => m.movie_id)).Nodup) :
    (calculateMemberElo movies swipes).map (fun st => st.title) =
      movies.map (fun m => m.title) := by
  simp only [calculateMemberElo, List.map_map]
  have hcomp : ((fun st : ScoredTitle => st.title) ∘
      (fun p : String × MovieRating => (⟨p.2.title, p.2.elo⟩ : ScoredTitle))) =
      fun p : String × MovieRating => p.2.title := rfl
  rw [hcomp, foldl_applySwipe_map_title, initRatings_eq_of_nodup movies h,
    List.map_map]
  rfl

/-- Closed witness for C5 on a two-candidate party with one swipe. -/
theorem calculateMemberElo_one_entry_per_candidate_witness :
    (calculateMemberElo [⟨"m1", "A", 1/2, 1200⟩, ⟨"m2", "B", 4/5, 1200⟩]
        [⟨"m1", Direction.right⟩]).map (fun st => st.title) = ["A", "B"] := by
  have h := calculateMemberElo_one_entry_per_candidate
    [⟨"m1", "A", 1/2, 1200⟩, ⟨"m2", "B", 4/5, 1200⟩]
    [⟨"m1", Direction.right⟩] (by decide)
  simpa using h

theorem mem_mapSet (m : EloMap) (k : String) (v : MovieRating)
    (p : String × MovieRating) (hp : p ∈ mapSet m k v) :
    p.1 ∈ m.map (fun q => q.1) ∨ p.1 = k := by
  unfold mapSet at hp
  by_cases hc : m.any (fun p => p.1 = k)
  · rw [if_pos hc] at hp
    obtain ⟨q, hq, hfq⟩ := List.mem_map.mp hp
    by_cases hqk : q.1 = k
    · right; rw [if_pos hqk] at hfq; rw [← hfq]
    · left; rw [if_neg hqk] at hfq; rw [← hfq]; exact List.mem_map_of_mem _ hq
  · rw [if_neg hc] at hp
    rcases List.mem_append.mp hp with hp | hp
    · left; exact List.mem_map_of_mem _ hp
    · right; simp only [List.mem_singleton] at hp; rw [hp]

theorem mem_initRatings_key (movies : List PartyMovie)
    (p : String × MovieRating) (hp : p ∈ initRatings movies) :
    p.1 ∈ movies.map (fun m => m.movie_id) := by
  suffices H : ∀ (ms : List PartyMovie) (acc : EloMap) (p : String × MovieRating),
      p ∈ ms.foldl (fun m movie =>
        mapSet m movie.movie_id ⟨BASE_ELO, movie.expected_score, movie.title⟩) acc →
      p.1 ∈ acc.map (fun q => q.1) ∨ p.1 ∈ ms.map (fun m => m.movie_id) by
    have := H movies [] p (by simpa [initRatings] using hp)
    simpa using this
  intro ms
  induction ms with
  | nil => intro acc p hp; simp only [List.foldl_nil] at hp
           exact Or.inl (List.mem_map_of_mem _ hp)
  | cons movie rest ih =>
    intro acc p hp
    simp only [List.foldl_cons] at hp
    rcases ih _ p hp with hk | hk
    · obtain ⟨q, hq, hfq⟩ := List.mem_map.mp hk
      rcases mem_mapSet acc movie.movie_id _ q hq with hq' | hq'
      · exact Or.inl (hfq ▸ hq')
      · right; simp [← hfq, hq']
    · right; exact List.mem_cons_of_mem _ hk

theorem applySwipe_of_not_mem (m : EloMap) (s : Swipe)
    (h : ∀ p ∈ m, p.1 ≠ s.movie_id) : applySwipe m s = m := by
  unfold applySwipe
  have : ∀ p ∈ m, (if p.1 = s.movie_id then
      (p.1, (⟨p.2.elo + K_FACTOR * (actualScore s.direction - p.2.expected_score),
             p.2.expected_score, p.2.title⟩ : MovieRating))
    else p) = p := by
    intro p hp
    rw [if_neg (h p hp)]
  rw [List.map_congr_left this, List.map_id']

/-- C6: a swipe whose movie_id is not among the candidates is ignored:
removing it from anywhere in the swipe list leaves the scorer's output
unchanged (and no error is possible, the embedding is total). -/
theorem calculateMemberElo_ignores_unknown (movies : List PartyMovie)
    (pre post : List Swipe) (s : Swipe)
    (h : s.movie_id ∉ movies.map (fun m => m.movie_id)) :
    calculateMemberElo movies (pre ++ s :: post) =
      calculateMemberElo movies (pre ++ post) := by
  unfold calculateMemberElo
  rw [List.foldl_append, List.foldl_append, List.foldl_cons]
  have hstale : applySwipe (pre.foldl applySwipe (initRatings movies)) s =
      pre.foldl applySwipe (initRatings movies) := by
    apply applySwipe_of_not_mem
    intro p hp hcontra
    have hkey : p.1 ∈ (pre.foldl applySwipe (initRatings movies)).map (fun q => q.1) :=
      List.mem_map_of_mem _ hp
    rw [foldl_applySwipe_map_key] at hkey
    obtain ⟨q, hq, hfq⟩ := List.mem_map.mp hkey
    have hmem := mem_initRatings_key movies q hq
    rw [hfq, hcontra] at hmem
    exact h hmem
  rw [hstale]

/-- Closed witness for C6: a swipe on an id outside the party changes
nothing. -/
theorem calculateMemberElo_ignores_unknown_witness :
    calculateMemberElo [⟨"m1", "A", 1/2, 1200⟩]
        [⟨"m1", Direction.right⟩, ⟨"zzz", Direction.left⟩] =
      calculateMemberElo [⟨"m1", "A", 1/2, 1200⟩] [⟨"m1", Direction.right⟩] := by
  have h := calculateMemberElo_ignores_unknown [⟨"m1", "A", 1/2, 1200⟩]
    [⟨"m1", Direction.right⟩] [] ⟨"zzz", Direction.left⟩ (by decide)
  simpa using h

theorem applySwipe_comm (st : EloMap) (s1 s2 : Swipe) :
    applySwipe (applySwipe st s1) s2 = applySwipe (applySwipe st s2) s1 := by
  simp only [applySwipe, List.map_map]
  apply List.map_congr_left
  intro p _
  simp only [Function.comp_apply]
  by_cases h1 : p.1 = s1.movie_id <;> by_cases h2 : p.1 = s2.movie_id
  · rw [if_pos h1, if_pos h2, if_pos h2, if_pos h1]
    simp only [Prod.mk.injEq, MovieRating.mk.injEq, true_and, and_true]
    ring
  · rw [if_pos h1, if_neg h2, if_neg h2, if_pos h1]
  · rw [if_neg h1, if_pos h2, if_neg h1]
  · rw [if_neg h1, if_neg h2, if_neg h1]

theorem initRatings_elo (movies : List PartyMovie)
    (p : String × MovieRating) (hp : p ∈ initRatings movies) :
    p.2.elo = BASE_ELO := by
  suffices H : ∀ (ms : List PartyMovie) (acc : EloMap) (p : String × MovieRating),
      (∀ q ∈ acc, q.2.elo = BASE_ELO) →
      p ∈ ms.foldl (fun m movie =>
        mapSet m movie.movie_id ⟨BASE_ELO, movie.expected_score, movie.title⟩) acc →
      p.2.elo = BASE_ELO by
    exact H movies [] p (by simp) (by simpa [initRatings] using hp)
  intro ms
  induction ms with
  | nil => intro acc p hacc hp; exact hacc p (by simpa using hp)
  | cons movie rest ih =>
    intro acc p hacc hp
    simp only [List.foldl_cons] at hp
    refine ih _ p ?_ hp
    intro q hq
    unfold mapSet at hq
    by_cases hc : acc.any (fun p => p.1 = movie.movie_id)
    · rw [if_pos hc] at hq
      obtain ⟨q', hq', hfq⟩ := List.mem_map.mp hq
      by_cases hk : q'.1 = movie.movie_id
      · rw [if_pos hk] at hfq; rw [← hfq]
      · rw [if_neg hk] at hfq; rw [← hfq]; exact hacc q' hq'
    · rw [if_neg hc] at hq
      rcases List.mem_append.mp hq with hq | hq
      · exact hacc q hq
      · simp only [List.mem_singleton] at hq; rw [hq]

theorem foldl_applySwipe_elo_sum (swipes : List Swipe) (st : EloMap)
    (k : String) (r : MovieRating) (hmem : (k, r) ∈ st) :
    (k, (⟨r.elo + ((swipes.filter (fun s => s.movie_id = k)).map
        (fun s => K_FACTOR * (actualScore s.direction - r.expected_score))).sum,
      r.expected_score, r.title⟩ : MovieRating)) ∈ swipes.foldl applySwipe st := by
  induction swipes generalizing st r with
  | nil => simpa using hmem
  | cons s rest ih =>
    simp only [List.foldl_cons]
    by_cases hk : s.movie_id = k
    · have hmem' : (k, (⟨r.elo + K_FACTOR * (actualScore s.direction - r.expected_score),
          r.expected_score, r.title⟩ : MovieRating)) ∈ applySwipe st s := by
        have heq : (fun p : String × MovieRating =>
            if p.1 = s.movie_id then
              (p.1, (⟨p.2.elo + K_FACTOR * (actualScore s.direction - p.2.expected_score),
                     p.2.expected_score, p.2.title⟩ : MovieRating))
            else p) (k, r) =
            (k, (⟨r.elo + K_FACTOR * (actualScore s.direction - r.expected_score),
                  r.expected_score, r.title⟩ : MovieRating)) := by
          simp [hk.symm]
        exact heq ▸ List.mem_map_of_mem _ hmem
      have hrec := ih (applySwipe st s)
        ⟨r.elo + K_FACTOR * (actualScore s.direction - r.expected_score),
          r.expected_score, r.title⟩ hmem'
      have hfil : (s :: rest).filter (fun s => s.movie_id = k) =
          s :: rest.filter (fun s => s.movie_id = k) := by
        simp [List.filter_cons, hk]
      rw [hfil]
      simp only [List.map_cons, List.sum_cons]
      convert hrec using 3
      ring
    · have hmem' : (k, r) ∈ applySwipe st s := by
        have heq : (fun p : String × MovieRating =>
            if p.1 = s.movie_id then
              (p.1, (⟨p.2.elo + K_FACTOR * (actualScore s.direction - p.2.expected_score),
                     p.2.expected_score, p.2.title⟩ : MovieRating))
            else p) (k, r) = (k, r) := by
          simp only []
          rw [if_neg (by simpa using fun h => hk h.symm)]
        exact heq ▸ List.mem_map_of_mem _ hmem
      have hfil : (s :: rest).filter (fun s => s.movie_id = k) =
          rest.filter (fun s => s.movie_id = k) := by
        simp [List.filter_cons, hk]
      rw [hfil]
      exact ih (applySwipe st s) r hmem'

/-- C2: the scorer is order-independent: permuting the member's swipe list
never changes the output, and each candidate entry of the initial state ends
with elo = baseline plus the sum of the per-swipe deltas 32 * (a - e) over
the swipes on that candidate. -/
theorem calculateMemberElo_order_independent :
    (∀ (movies : List PartyMovie) (s1 s2 : List Swipe), s1.Perm s2 →
      calculateMemberElo movies s1 = calculateMemberElo movies s2)
    ∧ (∀ (movies : List PartyMovie) (swipes : List Swipe) (k : String)
        (r : MovieRating), (k, r) ∈ initRatings movies →
        (k, (⟨1200 + ((swipes.filter (fun s => s.movie_id = k)).map
            (fun s => 32 * (actualScore s.direction - r.expected_score))).sum,
          r.expected_score, r.title⟩ : MovieRating)) ∈
          swipes.foldl applySwipe (initRatings movies)) := by
  constructor
  · intro movies s1 s2 hp
    unfold calculateMemberElo
    congr 1
    exact hp.foldl_eq' (fun x _ y _ z => applySwipe_comm z x y) _
  · intro movies swipes k r hmem
    have h := foldl_applySwipe_elo_sum swipes (initRatings movies) k r hmem
    have helo : r.elo = 1200 := initRatings_elo movies (k, r) hmem
    rw [helo] at h
    simpa [K_FACTOR] using h

/-- Closed witness for C2: swapping two swipes on the same candidate leaves
the result unchanged, and the summed-delta form of the final state holds at a
concrete party. -/
theorem calculateMemberElo_order_independent_witness :
    calculateMemberElo [⟨"m1", "A", 1/2, 1200⟩]
        [⟨"m1", Direction.right⟩, ⟨"m1", Direction.left⟩] =
      calculateMemberElo [⟨"m1", "A", 1/2, 1200⟩]
        [⟨"m1", Direction.left⟩, ⟨"m1", Direction.right⟩] := by
  exact calculateMemberElo_order_independent.1 [⟨"m1", "A", 1/2, 1200⟩]
    [⟨"m1", Direction.right⟩, ⟨"m1", Direction.left⟩]
    [⟨"m1", Direction.left⟩, ⟨"m1", Direction.right⟩]
    (List.Perm.swap _ _ _)

/-! The normalization block of calculateAndStoreFinalRankings. -/

/-- The title comparator used to sort member elo arrays; the source compares
with title.localeCompare, modelled here as lexicographic order on the titles'
character lists (the code-point order: it agrees with the order on String by
String.le_iff_toList_le). -/
def titleLe (a b : ScoredTitle) : Prop := a.title.toList ≤ b.title.toList

instance : DecidableRel titleLe :=
  fun a b => inferInstanceAs (Decidable (a.title.toList ≤ b.title.toList))

instance : IsTotal ScoredTitle titleLe :=
  ⟨fun a b => le_total a.title.toList b.title.toList⟩

instance : IsTrans ScoredTitle titleLe :=
  ⟨fun _ _ _ hab hbc => le_trans hab hbc⟩

/-- A JS Set built from a list, read back as a list: the distinct elements in
first-occurrence order. -/
def jsSetList (ts : List String) : List String :=
  ts.foldl (fun acc t => if t ∈ acc then acc else acc ++ [t]) []

/-- Normalization block of calculateAndStoreFinalRankings: with no member
arrays nothing happens; otherwise allTitles is the title set of the FIRST
member array, every member array gets (title, BASE_ELO) appended for each
title of allTitles it lacks, and is then re-sorted by title. -/
def normalizeMemberEloArrays (arrays : List (List ScoredTitle)) :
    List (List ScoredTitle) :=
  match arrays with
  | [] => []
  | firstArray :: _ =>
    let allTitles := jsSetList (firstArray.map (fun m => m.title))
    arrays.map (fun memberArray =>
      let memberTitles := memberArray.map (fun m => m.title)
      (memberArray ++
        (allTitles.filter (fun t => !(memberTitles.contains t))).map
          (fun t => (⟨t, BASE_ELO⟩ : ScoredTitle))).insertionSort titleLe)

/-- The union of all titles seen across all member vectors, as the spec's
completeness requirement for normalization words it (spec-side definition,
for comparison with the code's behaviour). -/
def specUnionTitles (arrays : List (List ScoredTitle)) : List String :=
  jsSetList ((arrays.map (fun arr => arr.map (fun m => m.title))).flatten)

theorem mem_jsSetList (ts : List String) (t : String) :
    t ∈ jsSetList ts ↔ t ∈ ts := by
  suffices H : ∀ (ts : List String) (acc : List String),
      t ∈ ts.foldl (fun acc t => if t ∈ acc then acc else acc ++ [t]) acc ↔
        t ∈ acc ∨ t ∈ ts by
    simpa [jsSetList] using H ts []
  intro ts
  induction ts with
  | nil => intro acc; simp
  | cons u rest ih =>
    intro acc
    simp only [List.foldl_cons]
    by_cases hu : u ∈ acc
    · rw [if_pos hu, ih]
      constructor
      · rintro (h | h)
        · exact Or.inl h
        · exact Or.inr (List.mem_cons_of_mem _ h)
      · rintro (h | h)
        · exact Or.inl h
        · rcases List.mem_cons.mp h with h | h
          · exact Or.inl (h ▸ hu)
          · exact Or.inr h
    · rw [if_neg hu, ih]
      constructor
      · rintro (h | h)
        · rcases List.mem_append.mp h with h | h
          · exact Or.inl h
          · simp only [List.mem_singleton] at h
            exact Or.inr (h ▸ List.mem_cons_self u rest)
        · exact Or.inr (List.mem_cons_of_mem _ h)
      · rintro (h | h)
        · exact Or.inl (List.mem_append_left _ h)
        · rcases List.mem_cons.mp h with h | h
          · exact Or.inl (List.mem_append_right _ (by simp [h]))
          · exact Or.inr h

/-- C3 counterexample: the normalized vectors are not complete over the
union of all titles: with input [[(A,1300)], [(B,1250)]] the union is
{A, B} but the first output vector is [(A,1300)], which lacks B. -/
theorem normalize_not_complete_over_union :
    ¬ (∀ (arrays : List (List ScoredTitle)),
        ∀ v ∈ normalizeMemberEloArrays arrays,
        ∀ t ∈ specUnionTitles arrays, t ∈ v.map (fun m => m.title)) := by
  intro h
  have hv : ([⟨"A", 1300⟩] : List ScoredTitle) ∈
      normalizeMemberEloArrays [[⟨"A", 1300⟩], [⟨"B", 1250⟩]] := by decide
  have ht : "B" ∈ specUnionTitles [[⟨"A", 1300⟩], [⟨"B", 1250⟩]] := by decide
  have := h [[⟨"A", 1300⟩], [⟨"B", 1250⟩]] [⟨"A", 1300⟩] hv "B" ht
  simp at this

/-- C3 amended: normalization produces vectors that are each complete over
the FIRST member vector's title set (the set the code actually uses; it
equals the union of all titles whenever every input vector covers the same
title set, as the scorer's outputs over one candidate list do), each sorted
by the same fixed title comparator. -/
theorem normalize_complete_over_first_and_sorted
    (firstArray : List ScoredTitle) (rest : List (List ScoredTitle)) :
    ∀ v ∈ normalizeMemberEloArrays (firstArray :: rest),
      (∀ t ∈ firstArray.map (fun m => m.title), t ∈ v.map (fun m => m.title))
      ∧ List.Sorted titleLe v := by
  intro v hv
  simp only [normalizeMemberEloArrays] at hv
  obtain ⟨memberArray, _hmem, hfv⟩ := List.mem_map.mp hv
  constructor
  · intro t ht
    have hperm : ((memberArray ++
        ((jsSetList (firstArray.map (fun m => m.title))).filter
          (fun t => !((memberArray.map (fun m => m.title)).contains t))).map
            (fun t => (⟨t, BASE_ELO⟩ : ScoredTitle))).insertionSort titleLe).Perm
        (memberArray ++
          ((jsSetList (firstArray.map (fun m => m.title))).filter
            (fun t => !((memberArray.map (fun m => m.title)).contains t))).map
              (fun t => (⟨t, BASE_ELO⟩ : ScoredTitle))) :=
      List.perm_insertionSort titleLe _
    rw [← hfv]
    have hmap := hperm.map (fun m : ScoredTitle => m.title)
    rw [hmap.mem_iff]
    by_cases hin : t ∈ memberArray.map (fun m => m.title)
    · simp only [List.map_append]
      exact List.mem_append_left _ hin
    · simp only [List.map_append]
      refine List.mem_append_right _ ?_
      rw [List.map_map]
      have htf : t ∈ (jsSetList (firstArray.map (fun m => m.title))).filter
          (fun t => !((memberArray.map (fun m => m.title)).contains t)) := by
        rw [List.mem_filter]
        refine ⟨(mem_jsSetList _ t).mpr ht, ?_⟩
        simpa using hin
      have : ((fun m : ScoredTitle => m.title) ∘ fun t => (⟨t, BASE_ELO⟩ : ScoredTitle)) = id := rfl
      rw [this, List.map_id]
      exact htf
  · rw [← hfv]
    exact List.sorted_insertionSort titleLe _

/-- Closed witness for the amended C3 statement: member 2's normalized
vector contains member 1's title B and is sorted. -/
theorem normalize_complete_over_first_and_sorted_witness :
    ("B" ∈ ([⟨"A", 1000⟩, ⟨"B", 1200⟩] : List ScoredTitle).map (fun m => m.title))
    ∧ List.Sorted titleLe [⟨"A", 1000⟩, ⟨"B", 1200⟩] := by
  have h := normalize_complete_over_first_and_sorted [⟨"B", 1250⟩] [[⟨"A", 1000⟩]]
    [⟨"A", 1000⟩, ⟨"B", 1200⟩] (by decide)
  exact ⟨h.1 "B" (by decide), h.2⟩

/-- C4: normalization never alters a rating the scorer computed: every
(title, elo) pair of the i-th input vector is present in the i-th output
vector; and normalizing an already-sorted vector against its own title set
is a no-op. -/
theorem normalize_preserves_ratings :
    (∀ (arrays : List (List ScoredTitle)),
      List.Forall₂ (fun arr out => ∀ p ∈ arr, p ∈ out)
        arrays (normalizeMemberEloArrays arrays))
    ∧ (∀ arr : List ScoredTitle, List.Sorted titleLe arr →
        normalizeMemberEloArrays [arr] = [arr]) := by
  constructor
  · intro arrays
    match arrays with
    | [] => exact List.Forall₂.nil
    | firstArray :: rest =>
      simp only [normalizeMemberEloArrays]
      rw [List.forall₂_map_right_iff]
      rw [List.forall₂_same]
      intro arr _ p hp
      rw [List.mem_insertionSort]
      exact List.mem_append_left _ hp
  · intro arr hsorted
    simp only [normalizeMemberEloArrays]
    have hfil : (jsSetList (arr.map (fun m => m.title))).filter
        (fun t => !((arr.map (fun m => m.title)).contains t)) = [] := by
      rw [List.filter_eq_nil_iff]
      intro t ht
      have : t ∈ arr.map (fun m => m.title) := (mem_jsSetList _ t).mp ht
      simpa using this
    simp only [List.map_cons, List.map_nil]
    rw [hfil]
    simp only [List.map_nil, List.append_nil]
    rw [hsorted.insertionSort_eq]

/-- Closed witness for C4: a sorted two-title vector passes through
normalization unchanged. -/
theorem normalize_preserves_ratings_witness :
    normalizeMemberEloArrays [[(⟨"A", 1300⟩ : ScoredTitle), ⟨"B", 1250⟩]] =
      [[⟨"A", 1300⟩, ⟨"B", 1250⟩]] :=
  normalize_preserves_ratings.2 [⟨"A", 1300⟩, ⟨"B", 1250⟩] (by decide)

/-! getPartyRankings and the final ranking order. -/

/-- The only ordering key getPartyRankings uses: elo_rating descending (the
order clause of its select); there is no secondary key. -/
def rankGe (a b : PartyMovie) : Prop := b.elo_rating ≤ a.elo_rating

instance : DecidableRel rankGe :=
  fun a b => inferInstanceAs (Decidable (b.elo_rating ≤ a.elo_rating))

instance : IsTotal PartyMovie rankGe :=
  ⟨fun a b => le_total b.elo_rating a.elo_rating⟩

instance : IsTrans PartyMovie rankGe :=
  ⟨fun _ _ _ hab hbc => le_trans hbc hab⟩

/-- getPartyRankings from the source: it returns the party's movie rows
ordered by elo_rating descending and nothing else; embedded as a stable
sort of the fetched rows by that single key. -/
def getPartyRankings (rows : List PartyMovie) : List PartyMovie :=
  rows.insertionSort rankGe

/-- C8 counterexample: rankings do not break ties by title: two rows with
equal elo_rating arriving as B then A stay in that order, though A comes
first lexicographically. -/
theorem getPartyRankings_tie_counterexample :
    ¬ (∀ (rows : List PartyMovie),
        (getPartyRankings rows).Pairwise
          (fun a b => a.elo_rating = b.elo_rating → a.title.toList ≤ b.title.toList)) := by
  intro h
  have hc := h [⟨"m2", "B", 1/2, 1200⟩, ⟨"m1", "A", 1/2, 1200⟩]
  revert hc
  decide

/-- C8 amended: getPartyRankings orders only by elo_rating descending: its
output is a permutation of the fetched rows sorted by that single key, so
candidates with equal consensus rating keep the backend's arrival order and
are never re-ordered by title. -/
theorem getPartyRankings_sorted_desc (rows : List PartyMovie) :
    (getPartyRankings rows).Perm rows
    ∧ List.Sorted rankGe (getPartyRankings rows) :=
  ⟨List.perm_insertionSort rankGe rows, List.sorted_insertionSort rankGe rows⟩

/-! The rank aggregator. -/

/-- Modelled from the spec: checkAll is imported from
lib/elo_rating/compare_elo, whose source file is not among the provided
sources. The spec (sections 4.3 and 9) fixes its call shape (list of member
vectors covering the same ordered title set in, one consensus vector out)
and its policy: a symmetric combining function per item, the reference
policy being the arithmetic mean of the members' ratings for that item. -/
def checkAll (memberEloArrays : List (List ScoredTitle)) : List ScoredTitle :=
  match memberEloArrays with
  | [] => []
  | v :: _ =>
    (List.range v.length).map (fun i =>
      ⟨(v.getD i ⟨"", 0⟩).title,
        ((memberEloArrays.map (fun w => (w.getD i ⟨"", 0⟩).elo)).sum) /
          (memberEloArrays.length : ℚ)⟩)

theorem getD_map_title (v : List ScoredTitle) (i : Nat) (hi : i < v.length) :
    (v.map (fun m => m.title)).getD i "" = (v.getD i (⟨"", 0⟩ : ScoredTitle)).title := by
  rw [List.getD_eq_getElem _ _ (by simpa using hi), List.getD_eq_getElem _ _ hi]
  exact List.getElem_map _

/-- C9: the aggregator is anonymous: permuting the list of member vectors,
all covering the same ordered title set, leaves the consensus vector
unchanged. -/
theorem checkAll_anonymous (vs1 vs2 : List (List ScoredTitle)) (ts : List String)
    (hp : vs1.Perm vs2) (hts : ∀ v ∈ vs1, v.map (fun m => m.title) = ts) :
    checkAll vs1 = checkAll vs2 := by
  cases vs1 with
  | nil =>
    have h2 : vs2 = [] := hp.symm.eq_nil
    rw [h2]
  | cons v1 rest1 =>
    cases vs2 with
    | nil => exact absurd hp.eq_nil (by simp)
    | cons v2 rest2 =>
      simp only [checkAll]
      have ht1 : v1.map (fun m => m.title) = ts := hts v1 (by simp)
      have hv2mem : v2 ∈ v1 :: rest1 := hp.mem_iff.mpr (by simp)
      have ht2 : v2.map (fun m => m.title) = ts := hts v2 hv2mem
      have hlen1 : v1.length = ts.length := by rw [← ht1, List.length_map]
      have hlen2 : v2.length = ts.length := by rw [← ht2, List.length_map]
      have hlen : v1.length = v2.length := by rw [hlen1, hlen2]
      rw [← hlen]
      apply List.map_congr_left
      intro i hi
      have hi1 : i < v1.length := List.mem_range.mp hi
      have hi2 : i < v2.length := by rw [← hlen]; exact hi1
      have hits : i < ts.length := by rw [← hlen1]; exact hi1
      have htitle : (v1.getD i ⟨"", 0⟩).title = (v2.getD i ⟨"", 0⟩).title := by
        have e1 := getD_map_title v1 i hi1
        have e2 := getD_map_title v2 i hi2
        rw [ht1] at e1
        rw [ht2] at e2
        rw [← e1, ← e2]
      have helo : ((v1 :: rest1).map (fun w => (w.getD i ⟨"", 0⟩).elo)).sum =
          ((v2 :: rest2).map (fun w => (w.getD i ⟨"", 0⟩).elo)).sum :=
        (hp.map _).sum_eq
      have hlist : ((v1 :: rest1).length : ℚ) = ((v2 :: rest2).length : ℚ) := by
        rw [hp.length_eq]
      rw [htitle, helo, hlist]

/-- Closed witness for C9: swapping two member vectors over title set {A}
yields the same consensus vector. -/
theorem checkAll_anonymous_witness :
    checkAll [[⟨"A", 1300⟩], [⟨"A", 1100⟩]] = checkAll [[⟨"A", 1100⟩], [⟨"A", 1300⟩]] :=
  checkAll_anonymous [[⟨"A", 1300⟩], [⟨"A", 1100⟩]] [[⟨"A", 1100⟩], [⟨"A", 1300⟩]]
    ["A"] (by decide) (by decide)

/-! Persistence of the final rankings. -/

/-- JS numeric truthiness for the fallback chain: x or-else y is y when x is
0 and x otherwise. -/
def jsOr (x y : ℚ) : ℚ := if x = 0 then y else x

/-- The eloMap of calculateAndStoreFinalRankings: a JS Map built from the
aggregated (title, elo) pairs (for duplicate titles the last pair wins),
queried by title. -/
def eloMapGet (aggregatedElos : List ScoredTitle) (title : String) : Option ℚ :=
  (aggregatedElos.reverse.find? (fun m => m.title == title)).map (fun m => m.elo)

/-- The rating persisted for one movie row: the source computes
eloMap.get(movie.title) or-else movie.elo_rating or-else 1200. -/
def finalElo (aggregatedElos : List ScoredTitle) (movie : PartyMovie) : ℚ :=
  match eloMapGet aggregatedElos movie.title with
  | none => jsOr movie.elo_rating 1200
  | some e => jsOr e (jsOr movie.elo_rating 1200)

/-- C10: when the aggregated rating for a movie's title is absent or exactly
0, the movie's pre-existing elo_rating is persisted instead, and 1200 when
that is 0 as well; the persisted value is never 0, so an aggregated
consensus value of exactly 0 is never written. -/
theorem finalElo_fallback (aggregatedElos : List ScoredTitle) (movie : PartyMovie) :
    ((eloMapGet aggregatedElos movie.title = none ∨
        eloMapGet aggregatedElos movie.title = some 0) →
      finalElo aggregatedElos movie = jsOr movie.elo_rating 1200)
    ∧ (movie.elo_rating = 0 → jsOr movie.elo_rating 1200 = 1200)
    ∧ finalElo aggregatedElos movie ≠ 0 := by
  have hbase : ∀ x : ℚ, jsOr x 1200 ≠ 0 := by
    intro x
    unfold jsOr
    split_ifs with h
    · norm_num
    · exact h
  refine ⟨?_, ?_, ?_⟩
  · rintro (h | h) <;> simp [finalElo, h, jsOr]
  · intro h
    simp [jsOr, h]
  · unfold finalElo
    cases heq : eloMapGet aggregatedElos movie.title with
    | none => exact hbase _
    | some e =>
      show (if e = 0 then jsOr movie.elo_rating 1200 else e) ≠ 0
      split_ifs with he
      · exact hbase _
      · exact he

/-- Closed witness for C10: an aggregated rating of 0 for title A falls back
to the movie's stored rating, itself 0 here, so 1200 is persisted. -/
theorem finalElo_fallback_witness :
    finalElo [⟨"A", 0⟩] ⟨"m1", "A", 1/2, 0⟩ = jsOr 0 1200
    ∧ jsOr (0 : ℚ) 1200 = 1200 :=
  ⟨(finalElo_fallback [⟨"A", 0⟩] ⟨"m1", "A", 1/2, 0⟩).1 (Or.inr (by decide)),
   (finalElo_fallback [⟨"A", 0⟩] ⟨"m1", "A", 1/2, 0⟩).2.1 rfl⟩
